import Mathlib

/-!
Verification development for the QJsonModel repository.

Part 1 embeds the bundled UTF-8/UTF-16 codec
(src/include/details/QUtf8.hpp) as executable Lean functions: machine
integers become Nat with explicit truncating casts written as `% 0x100`,
`% 0x10000`, `% 0x100000000`, output pointers become the list of appended
units, and input pointers become the remaining input list plus an advance
count.

Part 2 models the JSON tree adapter (QJsonModel.cpp and QJsonTreeItem.cpp,
compiled by the build script but not present in this tree) from the
specification.
-/

namespace QUtf8

/-- Error code kError of the bundled traits (QUtf8.hpp line 195). -/
def kError : Int := -1

/-- Error code kEndOfString of the bundled traits (QUtf8.hpp line 196). -/
def kEndOfString : Int := -2

/-- The three boolean knobs that the two conversion templates read from their
Traits parameter. The bundled QUtf8BaseTraits sets them to false, true, false. -/
structure Traits where
  isTrusted : Bool
  allowNonCharacters : Bool
  skipAsciiHandling : Bool

/-- The bundled QUtf8BaseTraits values (QUtf8.hpp lines 192-194): kIsTrusted =
false, kAllowNonCharacters = true, kSkipAsciiHandling = false. -/
def qUtf8BaseTraits : Traits := ⟨false, true, false⟩

/-- Models QChar.isSurrogate of the host framework: U+D800..U+DFFF. -/
abbrev qcharIsSurrogate (c : Nat) : Prop := 0xD800 ≤ c ∧ c < 0xE000

/-- Models QChar.isHighSurrogate of the host framework. -/
abbrev qcharIsHighSurrogate (c : Nat) : Prop := c &&& 0xFC00 = 0xD800

/-- Models QChar.isLowSurrogate of the host framework. -/
abbrev qcharIsLowSurrogate (c : Nat) : Prop := c &&& 0xFC00 = 0xDC00

/-- Models QChar.isNonCharacter of the host framework. -/
abbrev qcharIsNonCharacter (c : Nat) : Prop :=
  0xFDD0 ≤ c ∧ (c ≤ 0xFDEF ∨ c &&& 0xFFFE = 0xFFFE)

/-- Models QChar.surrogateToUcs4 of the host framework:
(high << 10) + low - 0x35FDC00 in unsigned 32-bit arithmetic. -/
def qcharSurrogateToUcs4 (h l : Nat) : Nat :=
  ((h <<< 10) + l + (0x100000000 - 0x35FDC00)) % 0x100000000

/-- Models QChar.requiresSurrogates of the host framework. -/
abbrev qcharRequiresSurrogates (c : Nat) : Prop := 0x10000 ≤ c

/-- Models QChar.highSurrogate of the host framework: (c >> 10) + 0xD7C0,
truncated to an unsigned 16-bit result. -/
def qcharHighSurrogate (c : Nat) : Nat := ((c >>> 10) + 0xD7C0) % 0x10000

/-- Models QChar.lowSurrogate of the host framework: c % 0x400 + 0xDC00,
truncated to an unsigned 16-bit result. -/
def qcharLowSurrogate (c : Nat) : Nat := (c % 0x400 + 0xDC00) % 0x10000

/-- Models QChar.LastValidCodePoint of the host framework. -/
def qcharLastValidCodePoint : Nat := 0x10FFFF

/-- QUtf8Functions.toUtf8 (QUtf8.hpp lines 32-90). The ushort argument
unicodeChar is `u`, the output pointer is returned as the list of appended
bytes, and the utf16 input pointer src is the list of remaining input units
together with the returned advance count. Casts to uchar and ushort are the
corresponding truncations. -/
def toUtf8 (t : Traits) (u : Nat) (src : List Nat) : Int × List Nat × Nat :=
  if t.skipAsciiHandling = false ∧ u < 0x80 then
    (0, [u % 0x100], 0)
  else if u < 0x800 then
    (0, [(0xC0 ||| ((u >>> 6) % 0x100)) % 0x100,
         (0x80 ||| (u &&& 0x3F)) % 0x100], 0)
  else if ¬ qcharIsSurrogate u then
    if t.allowNonCharacters = false ∧ qcharIsNonCharacter u then
      (kError, [], 0)
    else
      (0, [(0xE0 ||| ((u >>> 12) % 0x100)) % 0x100,
           (0x80 ||| (((u >>> 6) % 0x100) &&& 0x3F)) % 0x100,
           (0x80 ||| (u &&& 0x3F)) % 0x100], 0)
  else if src.length = 0 then
    (kEndOfString, [], 0)
  else
    let low := src.headD 0
    if ¬ qcharIsHighSurrogate u then
      (kError, [], 0)
    else if ¬ qcharIsLowSurrogate low then
      (kError, [], 0)
    else
      let ucs4 := qcharSurrogateToUcs4 u low
      if t.allowNonCharacters = false ∧ qcharIsNonCharacter ucs4 then
        (kError, [], 1)
      else
        let u2 := ucs4 % 0x10000
        (0, [(0xF0 ||| (((ucs4 >>> 18) % 0x100) &&& 0xF)) % 0x100,
             (0x80 ||| (((ucs4 >>> 12) % 0x100) &&& 0x3F)) % 0x100,
             (0x80 ||| (((u2 >>> 6) % 0x100) &&& 0x3F)) % 0x100,
             (0x80 ||| (u2 &&& 0x3F)) % 0x100], 1)

/-- QUtf8Functions.isContinuationByte (QUtf8.hpp lines 91-94). -/
abbrev isContinuationByte (b : Nat) : Prop := b &&& 0xC0 = 0x80

/-- Models QUtf8BaseTraits.peekByte: the byte n positions past the current
input pointer. -/
def peekByte (src : List Nat) (n : Nat) : Nat := src.getD n 0

/-- The tail of QUtf8Functions.fromUtf8 after the checks that pick
charsNeeded, minUChar and the payload bits of the first byte
(QUtf8.hpp lines 166-187): the untrusted-input safety checks and the
UTF-16 output. -/
def fromUtf8Finish (t : Traits) (charsNeeded minUChar uc : Nat) :
    Int × List Nat × Nat :=
  if t.isTrusted = false ∧ uc < minUChar then
    (kError, [], 0)
  else if t.isTrusted = false ∧ (qcharIsSurrogate uc ∨ qcharLastValidCodePoint < uc) then
    (kError, [], 0)
  else if t.isTrusted = false ∧ t.allowNonCharacters = false ∧ qcharIsNonCharacter uc then
    (kError, [], 0)
  else if ¬ qcharRequiresSurrogates uc then
    ((charsNeeded : Int), [uc % 0x10000], charsNeeded - 1)
  else
    ((charsNeeded : Int), [qcharHighSurrogate uc, qcharLowSurrogate uc], charsNeeded - 1)

/-- The part of QUtf8Functions.fromUtf8 shared by the multi-byte branches
(QUtf8.hpp lines 132-187): availability check, continuation bytes, payload
accumulation, then fromUtf8Finish. -/
def fromUtf8Tail (t : Traits) (src : List Nat) (charsNeeded minUChar uc0 : Nat) :
    Int × List Nat × Nat :=
  if src.length < charsNeeded - 1 then
    if 0 < src.length ∧ ¬ isContinuationByte (peekByte src 0) then
      (kError, [], 0)
    else if 1 < src.length ∧ ¬ isContinuationByte (peekByte src 1) then
      (kError, [], 0)
    else
      (kEndOfString, [], 0)
  else if ¬ isContinuationByte (peekByte src 0) then
    (kError, [], 0)
  else
    let uc1 := (uc0 <<< 6) ||| (peekByte src 0 &&& 0x3F)
    if 2 < charsNeeded then
      if ¬ isContinuationByte (peekByte src 1) then
        (kError, [], 0)
      else
        let uc2 := (uc1 <<< 6) ||| (peekByte src 1 &&& 0x3F)
        if 3 < charsNeeded then
          if ¬ isContinuationByte (peekByte src 2) then
            (kError, [], 0)
          else
            fromUtf8Finish t charsNeeded minUChar ((uc2 <<< 6) ||| (peekByte src 2 &&& 0x3F))
        else
          fromUtf8Finish t charsNeeded minUChar uc2
    else
      fromUtf8Finish t charsNeeded minUChar uc1

/-- QUtf8Functions.fromUtf8 (QUtf8.hpp lines 98-188). The uchar argument is
`b`, the remaining input bytes are `src`, and the result is the returned
count, the appended UTF-16 units and the number of bytes the input pointer
was advanced by. -/
def fromUtf8 (t : Traits) (b : Nat) (src : List Nat) : Int × List Nat × Nat :=
  if t.skipAsciiHandling = false ∧ b < 0x80 then
    (1, [b], 0)
  else if t.isTrusted = false ∧ b ≤ 0xC1 then
    (kError, [], 0)
  else if b < 0xE0 then
    fromUtf8Tail t src 2 0x80 (b &&& 0x1F)
  else if b < 0xF0 then
    fromUtf8Tail t src 3 0x800 (b &&& 0x0F)
  else if b < 0xF5 then
    fromUtf8Tail t src 4 0x10000 (b &&& 0x07)
  else
    (kError, [], 0)

/-- The static data member names that the struct QUtf8BaseTraits declares
(QUtf8.hpp lines 191-232), transcribed verbatim from the source. -/
def qUtf8BaseTraitsMembers : List String :=
  ["kIsTrusted", "kAllowNonCharacters", "kSkipAsciiHandling",
   "kError", "kEndOfString", "isValidCharacter",
   "appendByte", "peekByte", "availableBytes", "advanceByte",
   "appendUtf16", "appendUcs4", "peekUtf16", "availableUtf16", "advanceUtf16"]

/-- The member names that the template QUtf8Functions.fromUtf8 looks up on its
Traits parameter (QUtf8.hpp lines 98-188), transcribed verbatim from the
source. -/
def fromUtf8ReferencedTraitMembers : List String :=
  ["skipAsciiHandling", "appendUtf16", "isTrusted", "kError",
   "availableBytes", "peekByte", "kEndOfString", "kAllowNonCharacters",
   "appendUcs4", "advanceByte"]

/-- The member names that the template QUtf8Functions.toUtf8 looks up on its
Traits parameter (QUtf8.hpp lines 32-90), transcribed verbatim from the
source. -/
def toUtf8ReferencedTraitMembers : List String :=
  ["kSkipAsciiHandling", "appendByte", "kAllowNonCharacters", "kError",
   "availableUtf16", "kEndOfString", "peekUtf16", "advanceUtf16"]

/-- The UTF-16 encoding of a code point, written with the framework surrogate
helpers; this is the unit sequence that fromUtf8 appends for a decoded code
point. -/
def utf16Units (c : Nat) : List Nat :=
  if qcharRequiresSurrogates c then [qcharHighSurrogate c, qcharLowSurrogate c]
  else [c]

/-- The minimal UTF-8 encoding length of a code point, as the claim about
fromUtf8 states it. -/
def utf8EncodedLength (c : Nat) : Nat :=
  if c < 0x80 then 1 else if c < 0x800 then 2 else if c < 0x10000 then 3 else 4

end QUtf8

namespace QJsonModel

/-- Modelled from the spec: the parsed JSON documents that the framework
parser hands to the model; QJsonModel.cpp and QJsonTreeItem.cpp are compiled
by the build script but absent from this tree, so the whole adapter is
modelled from the specification text. -/
inductive Json where
  | null : Json
  | bool (b : Bool) : Json
  | num (n : Int) : Json
  | str (s : String) : Json
  | arr (elems : List Json) : Json
  | obj (members : List (String × Json)) : Json

/-- Modelled from the spec: the six JSON types a node can hold. -/
inductive JsonType where
  | null
  | bool
  | number
  | string
  | array
  | object
deriving DecidableEq

/-- Modelled from the spec: a scalar JSON value stored in a leaf node. -/
inductive JsonValue where
  | null : JsonValue
  | bool (b : Bool) : JsonValue
  | num (n : Int) : JsonValue
  | str (s : String) : JsonValue
deriving DecidableEq

/-- The JSON type of a scalar value. -/
def jsonTypeOf : JsonValue → JsonType
  | .null => .null
  | .bool _ => .bool
  | .num _ => .number
  | .str _ => .string

/-- The scalar JSON document a leaf value denotes. -/
def jsonOfValue : JsonValue → Json
  | .null => .null
  | .bool b => .bool b
  | .num n => .num n
  | .str s => .str s

/-- Modelled from the spec: one tree node (QJsonTreeItem): a stable key for
display, the JSON type, the scalar payload of a leaf, a non-owning
back-reference to the parent node, and the ordered ids of the owned
children. Nodes live in a store list indexed by node id. -/
structure TreeItem where
  key : String
  type : JsonType
  value : JsonValue
  parent : Option Nat
  childIds : List Nat
deriving DecidableEq

/-- The default node used to read the store out of range. -/
def defaultItem : TreeItem := ⟨"", .null, .null, none, []⟩

/-- The node stored under an id. -/
def nodeAt (store : List TreeItem) (i : Nat) : TreeItem :=
  store.getD i defaultItem

mutual

/-- The number of tree nodes a document loads into. -/
def jsonSize : Json → Nat
  | .arr es => 1 + jsonSizeList es
  | .obj ms => 1 + jsonSizeMems ms
  | _ => 1

def jsonSizeList : List Json → Nat
  | [] => 0
  | j :: rest => jsonSize j + jsonSizeList rest

def jsonSizeMems : List (String × Json) → Nat
  | [] => 0
  | (_, j) :: rest => jsonSize j + jsonSizeMems rest

end

mutual

/-- The nesting height of a document; used as serialization fuel. -/
def jsonHeight : Json → Nat
  | .arr es => 1 + jsonHeightList es
  | .obj ms => 1 + jsonHeightMems ms
  | _ => 1

def jsonHeightList : List Json → Nat
  | [] => 0
  | j :: rest => max (jsonHeight j) (jsonHeightList rest)

def jsonHeightMems : List (String × Json) → Nat
  | [] => 0
  | (_, j) :: rest => max (jsonHeight j) (jsonHeightMems rest)

end

/-- The ids of the children of an array node whose first child is stored at
nextId, in document order. -/
def arrChildIds : List Json → Nat → List Nat
  | [], _ => []
  | j :: rest, nextId => nextId :: arrChildIds rest (nextId + jsonSize j)

/-- The ids of the children of an object node whose first child is stored at
nextId, in document order. -/
def objChildIds : List (String × Json) → Nat → List Nat
  | [], _ => []
  | (_, j) :: rest, nextId => nextId :: objChildIds rest (nextId + jsonSize j)

mutual

/-- Modelled from the spec: load a parsed JSON value as the tree node with id
myId followed by the nodes of its subtree: the node keeps its children in
document order and every child records myId as its parent back-reference.
Array children are keyed by their index, object children by their member
name. -/
def buildSeg : Json → String → Option Nat → Nat → List TreeItem
  | .null, key, par, _ => [⟨key, .null, .null, par, []⟩]
  | .bool b, key, par, _ => [⟨key, .bool, .bool b, par, []⟩]
  | .num n, key, par, _ => [⟨key, .number, .num n, par, []⟩]
  | .str s, key, par, _ => [⟨key, .string, .str s, par, []⟩]
  | .arr es, key, par, myId =>
      ⟨key, .array, .null, par, arrChildIds es (myId + 1)⟩ ::
        buildArrKids es 0 myId (myId + 1)
  | .obj ms, key, par, myId =>
      ⟨key, .object, .null, par, objChildIds ms (myId + 1)⟩ ::
        buildObjKids ms myId (myId + 1)

def buildArrKids : List Json → Nat → Nat → Nat → List TreeItem
  | [], _, _, _ => []
  | j :: rest, i, pid, nextId =>
      buildSeg j (toString i) (some pid) nextId ++
        buildArrKids rest (i + 1) pid (nextId + jsonSize j)

def buildObjKids : List (String × Json) → Nat → Nat → List TreeItem
  | [], _, _ => []
  | (k, j) :: rest, pid, nextId =>
      buildSeg j k (some pid) nextId ++
        buildObjKids rest pid (nextId + jsonSize j)

end

/-- Modelled from the spec: load a parsed document into a fresh store; the
root item gets id 0 and no parent. -/
def jsonLoad (j : Json) : List TreeItem := buildSeg j "root" none 0

/-- The stored scalar payload is consistent with the declared JSON type:
container nodes carry no scalar payload, leaves carry one of matching type. -/
def nodeTypeOK (n : TreeItem) : Prop :=
  match n.type with
  | .array => n.value = .null
  | .object => n.value = .null
  | t => jsonTypeOf n.value = t

instance (n : TreeItem) : Decidable (nodeTypeOK n) := by
  unfold nodeTypeOK
  split <;> infer_instance

/-- Every stored child id is a valid id above its parent and its node points
back to the parent. -/
def childOK (store : List TreeItem) (i : Nat) : Prop :=
  ∀ c ∈ (nodeAt store i).childIds,
    i < c ∧ c < store.length ∧ (nodeAt store c).parent = some i

instance (store : List TreeItem) (i : Nat) : Decidable (childOK store i) := by
  unfold childOK
  infer_instance

/-- The root is the only node without a parent; every other node points to a
valid parent that lists it as a child. -/
def parentOK (store : List TreeItem) (i : Nat) : Prop :=
  match (nodeAt store i).parent with
  | none => i = 0
  | some p => i ≠ 0 ∧ p < store.length ∧ i ∈ (nodeAt store p).childIds

instance (store : List TreeItem) (i : Nat) : Decidable (parentOK store i) := by
  unfold parentOK
  split <;> infer_instance

/-- Modelled from the spec: the structural invariant of the node store. -/
def wellFormed (store : List TreeItem) : Prop :=
  0 < store.length ∧
    ∀ i, i < store.length →
      childOK store i ∧ parentOK store i ∧ nodeTypeOK (nodeAt store i)

instance (store : List TreeItem) : Decidable (wellFormed store) := by
  unfold wellFormed
  infer_instance

/-- Modelled from the spec: a toolkit model index: the invalid root index or
a (row, column, node) triple as produced by createIndex. -/
inductive ModelIndex where
  | invalid : ModelIndex
  | idx (row : Nat) (col : Nat) (nodeId : Nat) : ModelIndex
deriving DecidableEq

/-- Modelled from the spec: resolve an index to the node it denotes; the
invalid index denotes the root item. -/
def itemOf : ModelIndex → Nat
  | .invalid => 0
  | .idx _ _ nid => nid

/-- Modelled from the spec: the first read operation: map a (row, column,
parent) address to the child node of the parent at that row; the model
exposes two display columns. -/
def modelIndex (store : List TreeItem) (row col : Nat) (parent : ModelIndex) :
    ModelIndex :=
  if col < 2 ∧ itemOf parent < store.length then
    match (nodeAt store (itemOf parent)).childIds[row]? with
    | some cid => ModelIndex.idx row col cid
    | none => ModelIndex.invalid
  else ModelIndex.invalid

/-- The row of a node inside the child list of its parent. -/
def rowInParent (store : List TreeItem) (id : Nat) : Nat :=
  match (nodeAt store id).parent with
  | none => 0
  | some p => List.indexOf id (nodeAt store p).childIds

/-- Modelled from the spec: the second read operation: map a node index back
to the address of its parent; children of the invisible root report the
invalid index. -/
def parentIndex (store : List TreeItem) (idx : ModelIndex) : ModelIndex :=
  match idx with
  | .invalid => .invalid
  | .idx _ _ nid =>
    match (nodeAt store nid).parent with
    | none => .invalid
    | some p => if p = 0 then .invalid else .idx (rowInParent store p) 0 p

/-- Modelled from the spec: the single mutation: edit a leaf value in place
after validating the new value against the original JSON type of the node;
the result is the success flag, the updated store, and the changed node id
reported to observers (none when nothing changed). -/
def editValue (store : List TreeItem) (id : Nat) (v : JsonValue) :
    Bool × List TreeItem × Option Nat :=
  if id < store.length then
    if jsonTypeOf v = (nodeAt store id).type then
      (true,
       store.set id ⟨(nodeAt store id).key, (nodeAt store id).type, v,
                     (nodeAt store id).parent, (nodeAt store id).childIds⟩,
       some id)
    else (false, store, none)
  else (false, store, none)

/-- Modelled from the spec: serialization: walk the tree depth-first and
reassemble arrays and objects from the children in stored order; fuel bounds
the recursion depth through the store. -/
def serializeNode (store : List TreeItem) : Nat → Nat → Json
  | 0, _ => .null
  | fuel + 1, id =>
    match (nodeAt store id).type with
    | .array =>
        .arr ((nodeAt store id).childIds.map fun c => serializeNode store fuel c)
    | .object =>
        .obj ((nodeAt store id).childIds.map fun c =>
          ((nodeAt store c).key, serializeNode store fuel c))
    | _ => jsonOfValue (nodeAt store id).value

/-- Modelled from the spec: serialize the whole tree starting at the root. -/
def jsonSerialize (store : List TreeItem) : Json :=
  serializeNode store store.length 0

/-- The per-segment structural invariant: the segment seg, whose first node
sits at absolute id base, is internally well formed: child links stay inside
the segment and point back correctly, every non-head node has its parent
inside the segment listing it, the head carries the given parent reference,
and every node is type-consistent. -/
def segWF (seg : List TreeItem) (base : Nat) (par : Option Nat) : Prop :=
  0 < seg.length ∧
  (nodeAt seg 0).parent = par ∧
  ∀ k, k < seg.length →
    (∀ c ∈ (nodeAt seg k).childIds,
      base + k < c ∧ c - base < seg.length ∧
      (nodeAt seg (c - base)).parent = some (base + k)) ∧
    (k ≠ 0 → ∃ p, (nodeAt seg k).parent = some p ∧ base ≤ p ∧
      p - base < seg.length ∧ (base + k) ∈ (nodeAt seg (p - base)).childIds) ∧
    nodeTypeOK (nodeAt seg k)

/-- The invariant of a region holding the child segments of one container
node: pid is the container id, base the id of the first child node, heads
the ids of the segment heads. -/
def kidsWF (kids : List TreeItem) (base pid : Nat) (heads : List Nat) : Prop :=
  ∀ k, k < kids.length →
    (∀ c ∈ (nodeAt kids k).childIds,
      base + k < c ∧ c - base < kids.length ∧
      (nodeAt kids (c - base)).parent = some (base + k)) ∧
    ((base + k) ∈ heads → (nodeAt kids k).parent = some pid) ∧
    ((base + k) ∉ heads → ∃ p, (nodeAt kids k).parent = some p ∧ base ≤ p ∧
      p - base < kids.length ∧ (base + k) ∈ (nodeAt kids (p - base)).childIds) ∧
    nodeTypeOK (nodeAt kids k)

end QJsonModel

namespace QUtf8

/-! Arithmetic helpers for the bit operations used by the codec. -/

theorem shiftLeft_lor_eq_add {n x y : Nat} (h : y < 2 ^ n) :
    (x <<< n) ||| y = x * 2 ^ n + y := by
  rw [Nat.shiftLeft_eq, Nat.mul_comm]
  exact (Nat.mul_add_lt_is_or h x).symm

theorem and_mask63 (x : Nat) : x &&& 0x3F = x % 64 := by
  have h := Nat.and_pow_two_sub_one_eq_mod x 6
  norm_num at h
  exact h

theorem and_mask31 (x : Nat) : x &&& 0x1F = x % 32 := by
  have h := Nat.and_pow_two_sub_one_eq_mod x 5
  norm_num at h
  exact h

theorem and_mask15 (x : Nat) : x &&& 0xF = x % 16 := by
  have h := Nat.and_pow_two_sub_one_eq_mod x 4
  norm_num at h
  exact h

theorem and_mask7 (x : Nat) : x &&& 0x7 = x % 8 := by
  have h := Nat.and_pow_two_sub_one_eq_mod x 3
  norm_num at h
  exact h

theorem lor_c0 : ∀ y < 64, 0xC0 ||| y = 0xC0 + y := by decide

theorem lor_80 : ∀ y < 64, 0x80 ||| y = 0x80 + y := by decide

theorem lor_e0 : ∀ y < 32, 0xE0 ||| y = 0xE0 + y := by decide

theorem lor_f0 : ∀ y < 16, 0xF0 ||| y = 0xF0 + y := by decide

theorem cont_of_80_add : ∀ z < 64, (0x80 + z) &&& 0xC0 = 0x80 := by decide

theorem c0_add_and_1f : ∀ w < 32, (0xC0 + w) &&& 0x1F = w := by decide

theorem e0_add_and_0f : ∀ w < 16, (0xE0 + w) &&& 0x0F = w := by decide

theorem f0_add_and_07 : ∀ w < 8, (0xF0 + w) &&& 0x07 = w := by decide

set_option maxRecDepth 10000 in
theorem high_surrogate_and : ∀ w < 0x440, 64 ≤ w → (0xD7C0 + w) &&& 0xFC00 = 0xD800 := by
  decide

set_option maxRecDepth 10000 in
theorem low_surrogate_and : ∀ z < 0x400, (0xDC00 + z) &&& 0xFC00 = 0xDC00 := by
  decide

/-- One payload accumulation step of fromUtf8, rewritten arithmetically. -/
theorem acc6 (x y : Nat) : (x <<< 6) ||| (y &&& 0x3F) = x * 64 + y % 64 := by
  rw [and_mask63]
  have h : y % 64 < 2 ^ 6 := by
    norm_num
    exact Nat.mod_lt _ (by norm_num)
  have h2 := shiftLeft_lor_eq_add (x := x) h
  norm_num at h2
  exact h2

theorem utf8EncodedLength_one {c : Nat} (h : c < 0x80) :
    utf8EncodedLength c = 1 := by
  simp only [utf8EncodedLength]
  rw [if_pos h]

theorem utf8EncodedLength_two {c : Nat} (h1 : 0x80 ≤ c) (h2 : c < 0x800) :
    utf8EncodedLength c = 2 := by
  simp only [utf8EncodedLength]
  rw [if_neg (by omega), if_pos h2]

theorem utf8EncodedLength_three {c : Nat} (h1 : 0x800 ≤ c) (h2 : c < 0x10000) :
    utf8EncodedLength c = 3 := by
  simp only [utf8EncodedLength]
  rw [if_neg (by omega), if_neg (by omega), if_pos h2]

theorem utf8EncodedLength_four {c : Nat} (h1 : 0x10000 ≤ c) :
    utf8EncodedLength c = 4 := by
  simp only [utf8EncodedLength]
  rw [if_neg (by omega), if_neg (by omega), if_neg (by omega)]

theorem fromUtf8Finish_sound {t : Traits} {cn minU uc : Nat}
    (ht : t.isTrusted = false)
    (hPos : 0 < (fromUtf8Finish t cn minU uc).1) :
    (fromUtf8Finish t cn minU uc).1 = (cn : Int) ∧
    (fromUtf8Finish t cn minU uc).2.1 = utf16Units uc ∧
    (fromUtf8Finish t cn minU uc).2.2 = cn - 1 ∧
    minU ≤ uc ∧ ¬ qcharIsSurrogate uc ∧ uc ≤ 0x10FFFF := by
  simp only [fromUtf8Finish, ht, eq_self_iff_true, true_and] at hPos ⊢
  split_ifs at hPos ⊢ with h1 h2 h3 h4
  · simp [kError] at hPos
  · simp [kError] at hPos
  · simp [kError] at hPos
  · -- qcharRequiresSurrogates uc holds: surrogate-pair output
    refine ⟨rfl, ?_, rfl, by omega, ?_, ?_⟩
    · simp only [utf16Units]
      rw [if_pos h4]
    · exact fun hs => h2 (Or.inl hs)
    · rcases not_or.mp h2 with ⟨-, hlast⟩
      simp only [qcharLastValidCodePoint] at hlast
      omega
  · -- single-unit output
    refine ⟨rfl, ?_, rfl, by omega, ?_, ?_⟩
    · simp only [utf16Units]
      rw [if_neg h4]
      have hm : uc % 0x10000 = uc := by
        refine Nat.mod_eq_of_lt ?_
        simp only [qcharRequiresSurrogates, not_le] at h4
        omega
      rw [hm]
    · exact fun hs => h2 (Or.inl hs)
    · rcases not_or.mp h2 with ⟨-, hlast⟩
      simp only [qcharLastValidCodePoint] at hlast
      omega

theorem fromUtf8Tail_sound {t : Traits} {src : List Nat} {cn minU uc0 : Nat}
    (ht : t.isTrusted = false) (hcn2 : 2 ≤ cn) (hcn4 : cn ≤ 4)
    (hPos : 0 < (fromUtf8Tail t src cn minU uc0).1) :
    ∃ c, (fromUtf8Tail t src cn minU uc0).1 = (cn : Int) ∧
      (fromUtf8Tail t src cn minU uc0).2.1 = utf16Units c ∧
      (fromUtf8Tail t src cn minU uc0).2.2 = cn - 1 ∧
      minU ≤ c ∧ ¬ qcharIsSurrogate c ∧ c ≤ 0x10FFFF ∧
      c < (uc0 + 1) * 64 ^ (cn - 1) := by
  simp only [fromUtf8Tail] at hPos ⊢
  split_ifs at hPos ⊢
  all_goals try simp [kError, kEndOfString] at hPos
  all_goals obtain ⟨e1, e2, e3, e4, e5, e6⟩ := fromUtf8Finish_sound ht hPos
  all_goals refine ⟨_, e1, e2, e3, e4, e5, e6, ?_⟩
  all_goals first
    | (obtain rfl : cn = 4 := by omega
       rw [acc6, acc6, acc6]
       have p0 : peekByte src 0 % 64 ≤ 63 := by omega
       have p1 : peekByte src 1 % 64 ≤ 63 := by omega
       have p2 : peekByte src 2 % 64 ≤ 63 := by omega
       norm_num
       omega)
    | (obtain rfl : cn = 3 := by omega
       rw [acc6, acc6]
       have p0 : peekByte src 0 % 64 ≤ 63 := by omega
       have p1 : peekByte src 1 % 64 ≤ 63 := by omega
       norm_num
       omega)
    | (obtain rfl : cn = 2 := by omega
       rw [acc6]
       have p0 : peekByte src 0 % 64 ≤ 63 := by omega
       norm_num
       omega)

/-! Evaluation of toUtf8 and fromUtf8 under the base traits, one lemma per
encoding length. -/

theorem toUtf8_base_ascii {u : Nat} (h : u < 0x80) (src : List Nat) :
    toUtf8 qUtf8BaseTraits u src = (0, [u], 0) := by
  simp only [toUtf8, qUtf8BaseTraits, eq_self_iff_true, true_and,
    Bool.true_eq_false, false_and, if_false]
  rw [if_pos h, Nat.mod_eq_of_lt (by omega)]

theorem toUtf8_base_two {u : Nat} (h1 : 0x80 ≤ u) (h2 : u < 0x800) (src : List Nat) :
    toUtf8 qUtf8BaseTraits u src = (0, [0xC0 + u / 64, 0x80 + u % 64], 0) := by
  simp only [toUtf8, qUtf8BaseTraits, eq_self_iff_true, true_and,
    Bool.true_eq_false, false_and, if_false]
  rw [if_neg (by omega), if_pos h2]
  have d1 : u >>> 6 = u / 64 := by
    rw [Nat.shiftRight_eq_div_pow]
  have e1 : 0xC0 ||| u / 64 = 0xC0 + u / 64 := lor_c0 (u / 64) (by omega)
  have e2 : 0x80 ||| u % 64 = 0x80 + u % 64 := lor_80 (u % 64) (by omega)
  rw [d1, and_mask63, Nat.mod_eq_of_lt (show u / 64 < 0x100 by omega), e1, e2,
      Nat.mod_eq_of_lt (show 0xC0 + u / 64 < 0x100 by omega),
      Nat.mod_eq_of_lt (show 0x80 + u % 64 < 0x100 by omega)]

theorem fromUtf8_base_two {w r : Nat} (hw2 : 2 ≤ w) (hw : w < 32) (hr : r < 64) :
    fromUtf8 qUtf8BaseTraits (0xC0 + w) [0x80 + r] = (2, [w * 64 + r], 1) := by
  simp only [fromUtf8, fromUtf8Tail, fromUtf8Finish, peekByte, qUtf8BaseTraits,
    eq_self_iff_true, true_and, Bool.true_eq_false, false_and, if_false,
    List.getD_cons_zero, List.length_cons, List.length_nil,
    qcharLastValidCodePoint]
  rw [if_neg (show ¬ (0xC0 + w < 0x80) by omega),
      if_neg (show ¬ (0xC0 + w ≤ 0xC1) by omega),
      if_pos (show 0xC0 + w < 0xE0 by omega)]
  rw [c0_add_and_1f w hw]
  rw [if_neg (show ¬ ((0 : Nat) + 1 < 2 - 1) by norm_num)]
  rw [if_neg (not_not_intro (cont_of_80_add r hr))]
  rw [if_neg (show ¬ (2 < 2) by norm_num)]
  rw [acc6, show (0x80 + r) % 64 = r by omega]
  rw [if_neg (show ¬ (w * 64 + r < 0x80) by omega),
      if_neg (show ¬ (qcharIsSurrogate (w * 64 + r) ∨ 0x10FFFF < w * 64 + r) by
        simp only [qcharIsSurrogate]
        omega),
      if_pos (show ¬ qcharRequiresSurrogates (w * 64 + r) by
        simp only [qcharRequiresSurrogates]
        omega)]
  rw [Nat.mod_eq_of_lt (show w * 64 + r < 0x10000 by omega)]
  norm_num

theorem fromUtf8_base_ascii {b : Nat} (h : b < 0x80) (src : List Nat) :
    fromUtf8 qUtf8BaseTraits b src = (1, [b], 0) := by
  simp only [fromUtf8, qUtf8BaseTraits, eq_self_iff_true, true_and,
    Bool.true_eq_false, false_and, if_false]
  rw [if_pos h]

theorem toUtf8_base_three {u : Nat} (h1 : 0x800 ≤ u) (h2 : u < 0x10000)
    (hs : ¬ qcharIsSurrogate u) (src : List Nat) :
    toUtf8 qUtf8BaseTraits u src =
      (0, [0xE0 + u / 4096, 0x80 + u / 64 % 64, 0x80 + u % 64], 0) := by
  simp only [toUtf8, qUtf8BaseTraits, eq_self_iff_true, true_and,
    Bool.true_eq_false, false_and, if_false]
  rw [if_neg (by omega), if_neg (by omega), if_pos hs]
  have d12 : u >>> 12 = u / 4096 := by
    rw [Nat.shiftRight_eq_div_pow]
  have d6 : u >>> 6 = u / 64 := by
    rw [Nat.shiftRight_eq_div_pow]
  rw [d12, d6, and_mask63 (u / 64 % 0x100), and_mask63 u,
      Nat.mod_eq_of_lt (show u / 4096 < 0x100 by omega),
      Nat.mod_mod_of_dvd (u / 64) (show (64 : Nat) ∣ 0x100 by norm_num),
      lor_e0 (u / 4096) (by omega), lor_80 (u / 64 % 64) (by omega),
      lor_80 (u % 64) (by omega),
      Nat.mod_eq_of_lt (show 0xE0 + u / 4096 < 0x100 by omega),
      Nat.mod_eq_of_lt (show 0x80 + u / 64 % 64 < 0x100 by omega),
      Nat.mod_eq_of_lt (show 0x80 + u % 64 < 0x100 by omega)]

theorem fromUtf8_base_three {w r s : Nat} (hw : w < 16) (hr : r < 64) (hs64 : s < 64)
    (hmin : 0x800 ≤ w * 4096 + r * 64 + s)
    (hsurr : ¬ qcharIsSurrogate (w * 4096 + r * 64 + s)) :
    fromUtf8 qUtf8BaseTraits (0xE0 + w) [0x80 + r, 0x80 + s] =
      (3, [w * 4096 + r * 64 + s], 2) := by
  simp only [fromUtf8, fromUtf8Tail, fromUtf8Finish, peekByte, qUtf8BaseTraits,
    eq_self_iff_true, true_and, Bool.true_eq_false, false_and, if_false,
    List.getD_cons_zero, List.getD_cons_succ, List.length_cons, List.length_nil,
    qcharLastValidCodePoint]
  rw [if_neg (show ¬ (0xE0 + w < 0x80) by omega),
      if_neg (show ¬ (0xE0 + w ≤ 0xC1) by omega),
      if_neg (show ¬ (0xE0 + w < 0xE0) by omega),
      if_pos (show 0xE0 + w < 0xF0 by omega)]
  rw [e0_add_and_0f w hw]
  rw [if_neg (show ¬ ((0 : Nat) + 1 + 1 < 3 - 1) by norm_num)]
  rw [if_neg (not_not_intro (cont_of_80_add r hr))]
  rw [if_pos (show (2 : Nat) < 3 by norm_num)]
  rw [if_neg (not_not_intro (cont_of_80_add s hs64))]
  rw [if_neg (show ¬ ((3 : Nat) < 3) by norm_num)]
  rw [acc6 w (0x80 + r), show (0x80 + r) % 64 = r by omega]
  rw [acc6 (w * 64 + r) (0x80 + s), show (0x80 + s) % 64 = s by omega]
  rw [show (w * 64 + r) * 64 + s = w * 4096 + r * 64 + s by ring]
  rw [if_neg (show ¬ (w * 4096 + r * 64 + s < 0x800) by omega),
      if_neg (show ¬ (qcharIsSurrogate (w * 4096 + r * 64 + s) ∨
          0x10FFFF < w * 4096 + r * 64 + s) by
        simp only [qcharIsSurrogate] at hsurr ⊢
        omega),
      if_pos (show ¬ qcharRequiresSurrogates (w * 4096 + r * 64 + s) by
        simp only [qcharRequiresSurrogates]
        omega)]
  rw [Nat.mod_eq_of_lt (show w * 4096 + r * 64 + s < 0x10000 by omega)]
  norm_num

theorem toUtf8_base_four {c : Nat} (h1 : 0x10000 ≤ c) (h2 : c ≤ 0x10FFFF) :
    toUtf8 qUtf8BaseTraits (qcharHighSurrogate c) [qcharLowSurrogate c] =
      (0, [0xF0 + c / 262144, 0x80 + c / 4096 % 64,
           0x80 + c / 64 % 64, 0x80 + c % 64], 1) := by
  have hhi : qcharHighSurrogate c = 0xD7C0 + c / 1024 := by
    simp only [qcharHighSurrogate, Nat.shiftRight_eq_div_pow]
    norm_num
    omega
  have hlo : qcharLowSurrogate c = 0xDC00 + c % 1024 := by
    simp only [qcharLowSurrogate]
    omega
  rw [hhi, hlo]
  simp only [toUtf8, qUtf8BaseTraits, eq_self_iff_true, true_and,
    Bool.true_eq_false, false_and, if_false, List.headD_cons,
    List.length_cons, List.length_nil]
  rw [if_neg (show ¬ (0xD7C0 + c / 1024 < 0x80) by omega),
      if_neg (show ¬ (0xD7C0 + c / 1024 < 0x800) by omega),
      if_neg (not_not_intro (show qcharIsSurrogate (0xD7C0 + c / 1024) by
        refine ⟨by omega, by omega⟩)),
      if_neg (show ¬ ((0 : Nat) + 1 = 0) by norm_num),
      if_neg (not_not_intro (show qcharIsHighSurrogate (0xD7C0 + c / 1024) from
        high_surrogate_and (c / 1024) (by omega) (by omega))),
      if_neg (not_not_intro (show qcharIsLowSurrogate (0xDC00 + c % 1024) from
        low_surrogate_and (c % 1024) (by omega)))]
  have hu : qcharSurrogateToUcs4 (0xD7C0 + c / 1024) (0xDC00 + c % 1024) = c := by
    simp only [qcharSurrogateToUcs4, Nat.shiftLeft_eq]
    norm_num
    omega
  rw [hu]
  have d18 : c >>> 18 = c / 262144 := by
    rw [Nat.shiftRight_eq_div_pow]
  have d12 : c >>> 12 = c / 4096 := by
    rw [Nat.shiftRight_eq_div_pow]
  have d6 : (c % 0x10000) >>> 6 = c % 0x10000 / 64 := by
    rw [Nat.shiftRight_eq_div_pow]
  rw [d18, d12, d6,
      Nat.mod_eq_of_lt (show c / 262144 < 0x100 by omega),
      and_mask15 (c / 262144),
      Nat.mod_eq_of_lt (show c / 262144 < 16 by omega),
      and_mask63 (c / 4096 % 0x100),
      Nat.mod_mod_of_dvd (c / 4096) (show (64 : Nat) ∣ 0x100 by norm_num),
      and_mask63 (c % 0x10000 / 64 % 0x100),
      Nat.mod_mod_of_dvd (c % 0x10000 / 64) (show (64 : Nat) ∣ 0x100 by norm_num),
      and_mask63 (c % 0x10000),
      show c % 0x10000 / 64 % 64 = c / 64 % 64 by omega,
      show c % 0x10000 % 64 = c % 64 by omega,
      lor_f0 (c / 262144) (by omega), lor_80 (c / 4096 % 64) (by omega),
      lor_80 (c / 64 % 64) (by omega), lor_80 (c % 64) (by omega),
      Nat.mod_eq_of_lt (show 0xF0 + c / 262144 < 0x100 by omega),
      Nat.mod_eq_of_lt (show 0x80 + c / 4096 % 64 < 0x100 by omega),
      Nat.mod_eq_of_lt (show 0x80 + c / 64 % 64 < 0x100 by omega),
      Nat.mod_eq_of_lt (show 0x80 + c % 64 < 0x100 by omega)]

theorem fromUtf8_base_four {w r s q : Nat} (hw : w < 8) (hr : r < 64)
    (hs64 : s < 64) (hq : q < 64)
    (hmin : 0x10000 ≤ w * 262144 + r * 4096 + s * 64 + q)
    (hmax : w * 262144 + r * 4096 + s * 64 + q ≤ 0x10FFFF) :
    fromUtf8 qUtf8BaseTraits (0xF0 + w) [0x80 + r, 0x80 + s, 0x80 + q] =
      (4, [qcharHighSurrogate (w * 262144 + r * 4096 + s * 64 + q),
           qcharLowSurrogate (w * 262144 + r * 4096 + s * 64 + q)], 3) := by
  simp only [fromUtf8, fromUtf8Tail, fromUtf8Finish, peekByte, qUtf8BaseTraits,
    eq_self_iff_true, true_and, Bool.true_eq_false, false_and, if_false,
    List.getD_cons_zero, List.getD_cons_succ, List.length_cons, List.length_nil,
    qcharLastValidCodePoint]
  rw [if_neg (show ¬ (0xF0 + w < 0x80) by omega),
      if_neg (show ¬ (0xF0 + w ≤ 0xC1) by omega),
      if_neg (show ¬ (0xF0 + w < 0xE0) by omega),
      if_neg (show ¬ (0xF0 + w < 0xF0) by omega),
      if_pos (show 0xF0 + w < 0xF5 by omega)]
  rw [f0_add_and_07 w hw]
  rw [if_neg (show ¬ ((0 : Nat) + 1 + 1 + 1 < 4 - 1) by norm_num)]
  rw [if_neg (not_not_intro (cont_of_80_add r hr))]
  rw [if_pos (show (2 : Nat) < 4 by norm_num)]
  rw [if_neg (not_not_intro (cont_of_80_add s hs64))]
  rw [if_pos (show (3 : Nat) < 4 by norm_num)]
  rw [if_neg (not_not_intro (cont_of_80_add q hq))]
  rw [acc6 w (0x80 + r), show (0x80 + r) % 64 = r by omega]
  rw [acc6 (w * 64 + r) (0x80 + s), show (0x80 + s) % 64 = s by omega]
  rw [acc6 ((w * 64 + r) * 64 + s) (0x80 + q), show (0x80 + q) % 64 = q by omega]
  rw [show ((w * 64 + r) * 64 + s) * 64 + q = w * 262144 + r * 4096 + s * 64 + q by ring]
  rw [if_neg (show ¬ (w * 262144 + r * 4096 + s * 64 + q < 0x10000) by omega),
      if_neg (show ¬ (qcharIsSurrogate (w * 262144 + r * 4096 + s * 64 + q) ∨
          0x10FFFF < w * 262144 + r * 4096 + s * 64 + q) by
        simp only [qcharIsSurrogate]
        omega),
      if_neg (not_not_intro (show
        qcharRequiresSurrogates (w * 262144 + r * 4096 + s * 64 + q) by
        simp only [qcharRequiresSurrogates]
        omega))]
  norm_num

/-- Claim C2: every Unicode scalar value survives the encode/decode round
trip under the bundled base traits: toUtf8 on its UTF-16 form succeeds with
return value 0, and fromUtf8 on the produced bytes returns their count and
appends exactly the original UTF-16 units. -/
theorem utf8_roundtrip (c : Nat) (hmax : c ≤ 0x10FFFF)
    (hs : ¬ qcharIsSurrogate c) :
    ∃ bytes : List Nat,
      toUtf8 qUtf8BaseTraits ((utf16Units c).headD 0) (utf16Units c).tail
        = (0, bytes, (utf16Units c).length - 1) ∧
      fromUtf8 qUtf8BaseTraits (bytes.headD 0) bytes.tail
        = ((bytes.length : Int), utf16Units c, bytes.length - 1) := by
  rcases Nat.lt_or_ge c 0x10000 with hbmp | hquad
  · have hU : utf16Units c = [c] := by
      simp only [utf16Units]
      rw [if_neg (show ¬ qcharRequiresSurrogates c by
        simp only [qcharRequiresSurrogates]
        omega)]
    rcases Nat.lt_or_ge c 0x80 with h80 | h80
    · refine ⟨[c], ?_, ?_⟩
      · rw [hU]
        simp only [List.headD_cons, List.tail_cons, List.length_cons,
          List.length_nil]
        rw [toUtf8_base_ascii h80]
      · rw [hU]
        simp only [List.headD_cons, List.tail_cons, List.length_cons,
          List.length_nil]
        rw [fromUtf8_base_ascii h80]
        norm_num
    rcases Nat.lt_or_ge c 0x800 with h800 | h800
    · refine ⟨[0xC0 + c / 64, 0x80 + c % 64], ?_, ?_⟩
      · rw [hU]
        simp only [List.headD_cons, List.tail_cons, List.length_cons,
          List.length_nil]
        rw [toUtf8_base_two h80 h800]
      · rw [hU]
        simp only [List.headD_cons, List.tail_cons, List.length_cons,
          List.length_nil]
        rw [fromUtf8_base_two (show 2 ≤ c / 64 by omega) (by omega) (by omega)]
        rw [show c / 64 * 64 + c % 64 = c by omega]
        norm_num
    · refine ⟨[0xE0 + c / 4096, 0x80 + c / 64 % 64, 0x80 + c % 64], ?_, ?_⟩
      · rw [hU]
        simp only [List.headD_cons, List.tail_cons, List.length_cons,
          List.length_nil]
        rw [toUtf8_base_three h800 hbmp hs]
      · rw [hU]
        simp only [List.headD_cons, List.tail_cons, List.length_cons,
          List.length_nil]
        have hflat : c / 4096 * 4096 + c / 64 % 64 * 64 + c % 64 = c := by omega
        rw [fromUtf8_base_three (show c / 4096 < 16 by omega) (by omega) (by omega)
          (by omega) (by rw [hflat]; exact hs)]
        rw [hflat]
        norm_num
  · have hU : utf16Units c = [qcharHighSurrogate c, qcharLowSurrogate c] := by
      simp only [utf16Units]
      rw [if_pos (show qcharRequiresSurrogates c from hquad)]
    refine ⟨[0xF0 + c / 262144, 0x80 + c / 4096 % 64,
             0x80 + c / 64 % 64, 0x80 + c % 64], ?_, ?_⟩
    · rw [hU]
      simp only [List.headD_cons, List.tail_cons, List.length_cons,
        List.length_nil]
      rw [toUtf8_base_four hquad hmax]
    · rw [hU]
      simp only [List.headD_cons, List.tail_cons, List.length_cons,
        List.length_nil]
      have hflat : c / 262144 * 262144 + c / 4096 % 64 * 4096 +
          c / 64 % 64 * 64 + c % 64 = c := by omega
      rw [fromUtf8_base_four (show c / 262144 < 8 by omega) (by omega) (by omega)
        (by omega) (by omega) (by omega)]
      rw [hflat]
      norm_num

/-- Witness for utf8_roundtrip at the concrete scalar value 0x41. -/
theorem utf8_roundtrip_witness :
    ∃ bytes : List Nat,
      toUtf8 qUtf8BaseTraits ((utf16Units 0x41).headD 0) (utf16Units 0x41).tail
        = (0, bytes, (utf16Units 0x41).length - 1) ∧
      fromUtf8 qUtf8BaseTraits (bytes.headD 0) bytes.tail
        = ((bytes.length : Int), utf16Units 0x41, bytes.length - 1) :=
  utf8_roundtrip 0x41 (by decide) (by decide)

/-- Claim C1: whenever fromUtf8 with the untrusted-input checks enabled
returns a positive count, the appended UTF-16 units encode a code point that
is not a surrogate and is at most U+10FFFF, the count is the minimal UTF-8
encoding length of that code point, and the accepted first byte was an ASCII
byte or lay in 0xC2..0xF4. -/
theorem fromUtf8_untrusted_sound (t : Traits) (b : Nat) (src : List Nat)
    (ht : t.isTrusted = false) (hb : b < 0x100) (hsrc : ∀ x ∈ src, x < 0x100)
    (hPos : 0 < (fromUtf8 t b src).1) :
    ∃ c, (fromUtf8 t b src).2.1 = utf16Units c ∧ ¬ qcharIsSurrogate c ∧
      c ≤ 0x10FFFF ∧ (fromUtf8 t b src).1 = (utf8EncodedLength c : Int) ∧
      (b < 0x80 ∨ (0xC2 ≤ b ∧ b ≤ 0xF4)) := by
  simp only [fromUtf8] at hPos ⊢
  split_ifs at hPos ⊢ with hA hB hC hD hE
  · -- ASCII
    refine ⟨b, ?_, by simp only [qcharIsSurrogate]; omega, by omega, ?_, Or.inl hA.2⟩
    · simp only [utf16Units]
      rw [if_neg (by simp only [qcharRequiresSurrogates, not_le]; omega)]
    · rw [utf8EncodedLength_one hA.2]
      norm_num
  · simp [kError] at hPos
  · -- two bytes
    have hB2 : 0xC2 ≤ b := by
      rcases not_and_or.mp hB with h | h
      · exact absurd ht h
      · omega
    obtain ⟨c, e1, e2, e3, e4, e5, e6, e7⟩ :=
      fromUtf8Tail_sound ht (by norm_num) (by norm_num) hPos
    have hub : c < 0x800 := by
      rw [and_mask31] at e7
      have hb32 : b % 32 ≤ 31 := by omega
      norm_num at e7
      omega
    refine ⟨c, e2, e5, e6, ?_, Or.inr ⟨hB2, by omega⟩⟩
    rw [e1, utf8EncodedLength_two (by omega) hub]
  · -- three bytes
    obtain ⟨c, e1, e2, e3, e4, e5, e6, e7⟩ :=
      fromUtf8Tail_sound ht (by norm_num) (by norm_num) hPos
    have hub : c < 0x10000 := by
      rw [and_mask15] at e7
      have hb16 : b % 16 ≤ 15 := by omega
      norm_num at e7
      omega
    refine ⟨c, e2, e5, e6, ?_, Or.inr ⟨by omega, by omega⟩⟩
    rw [e1, utf8EncodedLength_three (by omega) hub]
  · -- four bytes
    obtain ⟨c, e1, e2, e3, e4, e5, e6, e7⟩ :=
      fromUtf8Tail_sound ht (by norm_num) (by norm_num) hPos
    refine ⟨c, e2, e5, e6, ?_, Or.inr ⟨by omega, by omega⟩⟩
    rw [e1, utf8EncodedLength_four (by omega)]
  · simp [kError] at hPos

/-- Witness for fromUtf8_untrusted_sound: decoding the single ASCII byte 0x41
under the bundled base traits. -/
theorem fromUtf8_untrusted_sound_witness :
    ∃ c, (fromUtf8 qUtf8BaseTraits 0x41 []).2.1 = utf16Units c ∧
      ¬ qcharIsSurrogate c ∧ c ≤ 0x10FFFF ∧
      (fromUtf8 qUtf8BaseTraits 0x41 []).1 = (utf8EncodedLength c : Int) ∧
      (0x41 < 0x80 ∨ (0xC2 ≤ 0x41 ∧ 0x41 ≤ 0xF4)) :=
  fromUtf8_untrusted_sound qUtf8BaseTraits 0x41 [] (by decide) (by decide)
    (by decide) (by decide)

/-- Claim C3: the bundled codec is not the verbatim framework utility.
fromUtf8 reads its traits through the original framework member names
isTrusted and skipAsciiHandling, while the traits struct shipped in the same
file declares only the renamed members kIsTrusted and kSkipAsciiHandling, so
instantiating fromUtf8 with the supplied QUtf8BaseTraits is ill-formed. -/
theorem fromUtf8_traits_member_mismatch :
    "isTrusted" ∈ fromUtf8ReferencedTraitMembers ∧
    "isTrusted" ∉ qUtf8BaseTraitsMembers ∧
    "skipAsciiHandling" ∈ fromUtf8ReferencedTraitMembers ∧
    "skipAsciiHandling" ∉ qUtf8BaseTraitsMembers ∧
    (∀ m ∈ toUtf8ReferencedTraitMembers, m ∈ qUtf8BaseTraitsMembers) := by
  decide

/-- Counterexample to claim C4 as stated for arbitrary traits: with a traits
instantiation that rejects non-characters, toUtf8 on the surrogate pair for
U+1FFFE consumes the low surrogate from the input before failing, so the
erroring call did advance the input pointer. -/
theorem toUtf8_error_after_advance :
    toUtf8 ⟨false, false, false⟩ 0xD83F [0xDFFE] = (-1, [], 1) := by
  decide

/-- Claim C4 (amended): under any traits that allow non-characters, in
particular the bundled QUtf8BaseTraits, every toUtf8 call that returns a
negative error code appends no byte and does not advance the input pointer. -/
theorem toUtf8_error_is_atomic (t : Traits) (u : Nat) (src : List Nat)
    (hAllow : t.allowNonCharacters = true)
    (hNeg : (toUtf8 t u src).1 < 0) :
    (toUtf8 t u src).2.1 = [] ∧ (toUtf8 t u src).2.2 = 0 := by
  simp only [toUtf8] at hNeg ⊢
  simp only [hAllow, Bool.true_eq_false, false_and, if_false] at hNeg ⊢
  split_ifs at hNeg ⊢ <;>
    first
      | exact ⟨rfl, rfl⟩
      | simp at hNeg

/-- Witness for toUtf8_error_is_atomic at a concrete erroring input: a lone
high surrogate with empty remaining input returns kEndOfString. -/
theorem toUtf8_error_is_atomic_witness :
    (toUtf8 qUtf8BaseTraits 0xD800 []).2.1 = [] ∧
    (toUtf8 qUtf8BaseTraits 0xD800 []).2.2 = 0 :=
  toUtf8_error_is_atomic qUtf8BaseTraits 0xD800 [] (by decide) (by decide)

end QUtf8

namespace QJsonModel

/-! Basic facts about the loader segments. -/

theorem jsonSize_pos (j : Json) : 1 ≤ jsonSize j := by
  cases j <;> simp [jsonSize]

mutual

theorem buildSeg_length : ∀ (j : Json) (key : String) (par : Option Nat) (myId : Nat),
    (buildSeg j key par myId).length = jsonSize j
  | .null, _, _, _ => by simp [buildSeg, jsonSize]
  | .bool b, _, _, _ => by simp [buildSeg, jsonSize]
  | .num n, _, _, _ => by simp [buildSeg, jsonSize]
  | .str s, _, _, _ => by simp [buildSeg, jsonSize]
  | .arr es, key, par, myId => by
      simp [buildSeg, jsonSize, buildArrKids_length es 0 myId (myId + 1)] <;> omega
  | .obj ms, key, par, myId => by
      simp [buildSeg, jsonSize, buildObjKids_length ms myId (myId + 1)] <;> omega

theorem buildArrKids_length : ∀ (es : List Json) (i pid nextId : Nat),
    (buildArrKids es i pid nextId).length = jsonSizeList es
  | [], _, _, _ => by simp [buildArrKids, jsonSizeList]
  | j :: rest, i, pid, nextId => by
      simp [buildArrKids, jsonSizeList,
        buildSeg_length j (toString i) (some pid) nextId,
        buildArrKids_length rest (i + 1) pid (nextId + jsonSize j)]

theorem buildObjKids_length : ∀ (ms : List (String × Json)) (pid nextId : Nat),
    (buildObjKids ms pid nextId).length = jsonSizeMems ms
  | [], _, _ => by simp [buildObjKids, jsonSizeMems]
  | (k, j) :: rest, pid, nextId => by
      simp [buildObjKids, jsonSizeMems, buildSeg_length j k (some pid) nextId,
        buildObjKids_length rest pid (nextId + jsonSize j)]

end

mutual

theorem jsonHeight_le_size : ∀ j : Json, jsonHeight j ≤ jsonSize j
  | .null => by simp [jsonHeight, jsonSize]
  | .bool b => by simp [jsonHeight, jsonSize]
  | .num n => by simp [jsonHeight, jsonSize]
  | .str s => by simp [jsonHeight, jsonSize]
  | .arr es => by
      have h := jsonHeightList_le_sizeList es
      simp only [jsonHeight, jsonSize]
      omega
  | .obj ms => by
      have h := jsonHeightMems_le_sizeMems ms
      simp only [jsonHeight, jsonSize]
      omega

theorem jsonHeightList_le_sizeList : ∀ es : List Json,
    jsonHeightList es ≤ jsonSizeList es
  | [] => by simp [jsonHeightList, jsonSizeList]
  | j :: rest => by
      have h1 := jsonHeight_le_size j
      have h2 := jsonHeightList_le_sizeList rest
      simp only [jsonHeightList, jsonSizeList]
      omega

theorem jsonHeightMems_le_sizeMems : ∀ ms : List (String × Json),
    jsonHeightMems ms ≤ jsonSizeMems ms
  | [] => by simp [jsonHeightMems, jsonSizeMems]
  | (k, j) :: rest => by
      have h1 := jsonHeight_le_size j
      have h2 := jsonHeightMems_le_sizeMems rest
      simp only [jsonHeightMems, jsonSizeMems]
      omega

end

theorem nodeAt_append_left {pre rest : List TreeItem} {i : Nat}
    (h : i < pre.length) : nodeAt (pre ++ rest) i = nodeAt pre i := by
  simp only [nodeAt]
  exact List.getD_append pre rest defaultItem i h

theorem nodeAt_append_right {pre rest : List TreeItem} {i : Nat}
    (h : pre.length ≤ i) : nodeAt (pre ++ rest) i = nodeAt rest (i - pre.length) := by
  simp only [nodeAt]
  exact List.getD_append_right pre rest defaultItem i h

theorem nodeAt_cons_zero (n : TreeItem) (rest : List TreeItem) :
    nodeAt (n :: rest) 0 = n := rfl

theorem nodeAt_cons_succ (n : TreeItem) (rest : List TreeItem) (k : Nat) :
    nodeAt (n :: rest) (k + 1) = nodeAt rest k := rfl

theorem nodeAt_base (pre seg post : List TreeItem) (hk : 0 < seg.length) :
    nodeAt (pre ++ seg ++ post) pre.length = nodeAt seg 0 := by
  rw [List.append_assoc, nodeAt_append_right (Nat.le_refl _), Nat.sub_self]
  exact nodeAt_append_left hk

theorem nodeAt_offset (pre seg post : List TreeItem) (k : Nat)
    (hk : k < seg.length) :
    nodeAt (pre ++ seg ++ post) (pre.length + k) = nodeAt seg k := by
  rw [List.append_assoc, nodeAt_append_right (Nat.le_add_right _ _),
    Nat.add_sub_cancel_left]
  exact nodeAt_append_left hk

theorem buildSeg_head_key (j : Json) (key : String) (par : Option Nat)
    (myId : Nat) : (nodeAt (buildSeg j key par myId) 0).key = key := by
  cases j <;> rfl

theorem buildSeg_head_parent (j : Json) (key : String) (par : Option Nat)
    (myId : Nat) : (nodeAt (buildSeg j key par myId) 0).parent = par := by
  cases j <;> rfl

theorem buildSeg_pos (j : Json) (key : String) (par : Option Nat) (myId : Nat) :
    0 < (buildSeg j key par myId).length := by
  rw [buildSeg_length]
  exact jsonSize_pos j

end QJsonModel

namespace QJsonModel

/-! Serialization inverts loading: the segment of each document value
serializes back to that value wherever the segment sits in the store. -/

mutual

theorem serialize_buildSeg : ∀ (j : Json) (key : String) (par : Option Nat)
    (pre post : List TreeItem) (fuel : Nat), jsonHeight j ≤ fuel →
    serializeNode (pre ++ buildSeg j key par pre.length ++ post) fuel pre.length = j
  | .null, key, par, pre, post, fuel, h => by
      cases fuel with
      | zero => simp [jsonHeight] at h
      | succ f =>
        simp only [serializeNode]
        rw [show buildSeg Json.null key par pre.length =
          [⟨key, .null, .null, par, []⟩] from rfl]
        rw [nodeAt_base pre _ post (by simp)]
        rfl
  | .bool b, key, par, pre, post, fuel, h => by
      cases fuel with
      | zero => simp [jsonHeight] at h
      | succ f =>
        simp only [serializeNode]
        rw [show buildSeg (Json.bool b) key par pre.length =
          [⟨key, .bool, .bool b, par, []⟩] from rfl]
        rw [nodeAt_base pre _ post (by simp)]
        rfl
  | .num n, key, par, pre, post, fuel, h => by
      cases fuel with
      | zero => simp [jsonHeight] at h
      | succ f =>
        simp only [serializeNode]
        rw [show buildSeg (Json.num n) key par pre.length =
          [⟨key, .number, .num n, par, []⟩] from rfl]
        rw [nodeAt_base pre _ post (by simp)]
        rfl
  | .str s, key, par, pre, post, fuel, h => by
      cases fuel with
      | zero => simp [jsonHeight] at h
      | succ f =>
        simp only [serializeNode]
        rw [show buildSeg (Json.str s) key par pre.length =
          [⟨key, .string, .str s, par, []⟩] from rfl]
        rw [nodeAt_base pre _ post (by simp)]
        rfl
  | .arr es, key, par, pre, post, fuel, h => by
      cases fuel with
      | zero => simp [jsonHeight] at h
      | succ f =>
        simp only [serializeNode]
        rw [show buildSeg (Json.arr es) key par pre.length =
          ⟨key, .array, .null, par, arrChildIds es (pre.length + 1)⟩ ::
            buildArrKids es 0 pre.length (pre.length + 1) from rfl]
        rw [nodeAt_base pre _ post (by simp)]
        rw [nodeAt_cons_zero]
        have hk := serialize_buildArrKids es 0 pre.length
          (pre ++ [⟨key, .array, .null, par, arrChildIds es (pre.length + 1)⟩])
          post f (by simp only [jsonHeight] at h; omega)
        simp only [List.length_append, List.length_cons, List.length_nil] at hk
        simp only [List.append_assoc, List.cons_append, List.nil_append,
          List.singleton_append] at hk ⊢
        exact congrArg Json.arr hk
  | .obj ms, key, par, pre, post, fuel, h => by
      cases fuel with
      | zero => simp [jsonHeight] at h
      | succ f =>
        simp only [serializeNode]
        rw [show buildSeg (Json.obj ms) key par pre.length =
          ⟨key, .object, .null, par, objChildIds ms (pre.length + 1)⟩ ::
            buildObjKids ms pre.length (pre.length + 1) from rfl]
        rw [nodeAt_base pre _ post (by simp)]
        rw [nodeAt_cons_zero]
        have hk := serialize_buildObjKids ms pre.length
          (pre ++ [⟨key, .object, .null, par, objChildIds ms (pre.length + 1)⟩])
          post f (by simp only [jsonHeight] at h; omega)
        simp only [List.length_append, List.length_cons, List.length_nil] at hk
        simp only [List.append_assoc, List.cons_append, List.nil_append,
          List.singleton_append] at hk ⊢
        exact congrArg Json.obj hk

theorem serialize_buildArrKids : ∀ (es : List Json) (i pid : Nat)
    (pre post : List TreeItem) (fuel : Nat), jsonHeightList es ≤ fuel →
    (arrChildIds es pre.length).map
      (fun c => serializeNode (pre ++ buildArrKids es i pid pre.length ++ post) fuel c)
      = es
  | [], _, _, _, _, _, _ => by simp [arrChildIds]
  | j :: rest, i, pid, pre, post, fuel, h => by
      simp only [jsonHeightList] at h
      simp only [arrChildIds, buildArrKids, List.map_cons, List.cons.injEq]
      constructor
      · have h1 := serialize_buildSeg j (toString i) (some pid) pre
          (buildArrKids rest (i + 1) pid (pre.length + jsonSize j) ++ post)
          fuel (by omega)
        simp only [List.append_assoc] at h1 ⊢
        exact h1
      · have h2 := serialize_buildArrKids rest (i + 1) pid
          (pre ++ buildSeg j (toString i) (some pid) pre.length) post fuel (by omega)
        simp only [List.length_append,
          buildSeg_length j (toString i) (some pid) pre.length] at h2
        simp only [List.append_assoc] at h2 ⊢
        exact h2

theorem serialize_buildObjKids : ∀ (ms : List (String × Json)) (pid : Nat)
    (pre post : List TreeItem) (fuel : Nat), jsonHeightMems ms ≤ fuel →
    (objChildIds ms pre.length).map
      (fun c => ((nodeAt (pre ++ buildObjKids ms pid pre.length ++ post) c).key,
        serializeNode (pre ++ buildObjKids ms pid pre.length ++ post) fuel c))
      = ms
  | [], _, _, _, _, _ => by simp [objChildIds]
  | (k, j) :: rest, pid, pre, post, fuel, h => by
      simp only [jsonHeightMems] at h
      simp only [objChildIds, buildObjKids, List.map_cons, List.cons.injEq]
      constructor
      · have hkey : (nodeAt (pre ++ buildSeg j k (some pid) pre.length ++
            (buildObjKids rest pid (pre.length + jsonSize j) ++ post)) pre.length).key
            = k := by
          rw [nodeAt_base pre _ _ (buildSeg_pos j k (some pid) pre.length)]
          exact buildSeg_head_key j k (some pid) pre.length
        have h1 := serialize_buildSeg j k (some pid) pre
          (buildObjKids rest pid (pre.length + jsonSize j) ++ post) fuel (by omega)
        simp only [List.append_assoc] at hkey h1 ⊢
        rw [Prod.mk.injEq]
        exact ⟨hkey, h1⟩
      · have h2 := serialize_buildObjKids rest pid
          (pre ++ buildSeg j k (some pid) pre.length) post fuel (by omega)
        simp only [List.length_append,
          buildSeg_length j k (some pid) pre.length] at h2
        simp only [List.append_assoc] at h2 ⊢
        exact h2

end

/-- Claim C5: serialization is a depth-first walk reassembling arrays and
objects from the children in stored order, and on the tree of a freshly
loaded document it reproduces that document exactly. -/
theorem serialize_load_roundtrip : ∀ j : Json, jsonSerialize (jsonLoad j) = j := by
  intro j
  have h := serialize_buildSeg j "root" none [] [] (jsonSize j) (by
    have := jsonHeight_le_size j
    omega)
  simp only [List.nil_append, List.append_nil, List.length_nil] at h
  unfold jsonSerialize jsonLoad
  rw [buildSeg_length]
  exact h

end QJsonModel

namespace QJsonModel

/-! The loader establishes the structural invariant. -/

theorem arrChildIds_bounds : ∀ (es : List Json) (nid c : Nat),
    c ∈ arrChildIds es nid → nid ≤ c ∧ c < nid + jsonSizeList es
  | [], _, _, h => by simp [arrChildIds] at h
  | j :: rest, nid, c, h => by
      simp only [arrChildIds, List.mem_cons] at h
      have hj := jsonSize_pos j
      rcases h with rfl | h
      · simp only [jsonSizeList]
        omega
      · have hr := arrChildIds_bounds rest (nid + jsonSize j) c h
        simp only [jsonSizeList]
        omega

theorem objChildIds_bounds : ∀ (ms : List (String × Json)) (nid c : Nat),
    c ∈ objChildIds ms nid → nid ≤ c ∧ c < nid + jsonSizeMems ms
  | [], _, _, h => by simp [objChildIds] at h
  | (k, j) :: rest, nid, c, h => by
      simp only [objChildIds, List.mem_cons] at h
      have hj := jsonSize_pos j
      rcases h with rfl | h
      · simp only [jsonSizeMems]
        omega
      · have hr := objChildIds_bounds rest (nid + jsonSize j) c h
        simp only [jsonSizeMems]
        omega

theorem segWF_leaf (key : String) (t : JsonType) (v : JsonValue)
    (par : Option Nat) (myId : Nat) (ht : nodeTypeOK ⟨key, t, v, par, []⟩) :
    segWF [⟨key, t, v, par, []⟩] myId par := by
  refine ⟨by simp, rfl, ?_⟩
  intro k hk
  simp only [List.length_singleton] at hk
  have hk0 : k = 0 := by omega
  subst hk0
  refine ⟨?_, fun h0 => absurd rfl h0, ht⟩
  intro c hcmem
  simp [nodeAt] at hcmem

theorem segWF_cons {node : TreeItem} {kids : List TreeItem} {myId : Nat}
    {par : Option Nat} {heads : List Nat}
    (hpar : node.parent = par)
    (htype : nodeTypeOK node)
    (hchild : node.childIds = heads)
    (hbounds : ∀ c ∈ heads, myId + 1 ≤ c ∧ c < myId + 1 + kids.length)
    (hkids : kidsWF kids (myId + 1) myId heads) :
    segWF (node :: kids) myId par := by
  refine ⟨by simp, by rw [nodeAt_cons_zero]; exact hpar, ?_⟩
  intro k hk
  cases k with
  | zero =>
    refine ⟨?_, fun h0 => absurd rfl h0, by rw [nodeAt_cons_zero]; exact htype⟩
    intro c hcmem
    rw [nodeAt_cons_zero, hchild] at hcmem
    obtain ⟨hb1, hb2⟩ := hbounds c hcmem
    have hk' : c - (myId + 1) < kids.length := by omega
    obtain ⟨-, hh, -, -⟩ := hkids (c - (myId + 1)) hk'
    have heq : myId + 1 + (c - (myId + 1)) = c := by omega
    rw [heq] at hh
    have hpc := hh hcmem
    refine ⟨by omega, ?_, ?_⟩
    · simp only [List.length_cons]
      omega
    · have hidx : c - myId = (c - (myId + 1)) + 1 := by omega
      rw [hidx, nodeAt_cons_succ, hpc]
      simp
  | succ k' =>
    simp only [List.length_cons] at hk
    have hk2 : k' < kids.length := by omega
    obtain ⟨hc, hh, hnh, ht⟩ := hkids k' hk2
    have hbase : myId + 1 + k' = myId + (k' + 1) := by omega
    refine ⟨?_, ?_, by rw [nodeAt_cons_succ]; exact ht⟩
    · intro c hcmem
      rw [nodeAt_cons_succ] at hcmem
      obtain ⟨h1, h2, h3⟩ := hc c hcmem
      rw [hbase] at h1
      refine ⟨h1, ?_, ?_⟩
      · simp only [List.length_cons]
        omega
      · have hidx : c - myId = (c - (myId + 1)) + 1 := by omega
        rw [hidx, nodeAt_cons_succ]
        rw [hbase] at h3
        exact h3
    · intro h0
      by_cases hmem : (myId + 1 + k') ∈ heads
      · have hpar2 := hh hmem
        refine ⟨myId, ?_, Nat.le_refl _, ?_, ?_⟩
        · rw [nodeAt_cons_succ]
          exact hpar2
        · simp only [Nat.sub_self, List.length_cons]
          omega
        · rw [Nat.sub_self, nodeAt_cons_zero, hchild, ← hbase]
          exact hmem
      · obtain ⟨p, hp1, hp2, hp3, hp4⟩ := hnh hmem
        refine ⟨p, ?_, by omega, ?_, ?_⟩
        · rw [nodeAt_cons_succ]
          exact hp1
        · simp only [List.length_cons]
          omega
        · have hidx : p - myId = (p - (myId + 1)) + 1 := by omega
          rw [hidx, nodeAt_cons_succ, ← hbase]
          exact hp4

theorem kidsWF_append {seg kids2 : List TreeItem} {nid pid : Nat}
    {headsRest : List Nat}
    (hseg : segWF seg nid (some pid))
    (hrest : kidsWF kids2 (nid + seg.length) pid headsRest)
    (hheadsLower : ∀ x ∈ headsRest, nid + seg.length ≤ x) :
    kidsWF (seg ++ kids2) nid pid (nid :: headsRest) := by
  obtain ⟨hpos, hhead, hkk⟩ := hseg
  intro k hk
  simp only [List.length_append] at hk
  by_cases hcase : k < seg.length
  · have htrans : ∀ m, m < seg.length → nodeAt (seg ++ kids2) m = nodeAt seg m :=
      fun m hm => nodeAt_append_left hm
    obtain ⟨hc, hp, ht⟩ := hkk k hcase
    refine ⟨?_, ?_, ?_, by rw [htrans k hcase]; exact ht⟩
    · intro c hcmem
      rw [htrans k hcase] at hcmem
      obtain ⟨h1, h2, h3⟩ := hc c hcmem
      refine ⟨h1, by simp only [List.length_append]; omega, ?_⟩
      rw [htrans (c - nid) h2]
      exact h3
    · intro hmem
      rcases List.mem_cons.mp hmem with heq | hmem2
      · have hk0 : k = 0 := by omega
        subst hk0
        rw [htrans 0 hpos, hhead]
      · have := hheadsLower _ hmem2
        omega
    · intro hnotmem
      have hk0 : k ≠ 0 := by
        rintro rfl
        exact hnotmem (by
          rw [Nat.add_zero]
          exact List.mem_cons_self _ _)
      obtain ⟨p, hp1, hp2, hp3, hp4⟩ := hp hk0
      refine ⟨p, ?_, hp2, by simp only [List.length_append]; omega, ?_⟩
      · rw [htrans k hcase]
        exact hp1
      · rw [htrans (p - nid) hp3]
        exact hp4
  · push_neg at hcase
    have htrans2 : ∀ m, seg.length ≤ m →
        nodeAt (seg ++ kids2) m = nodeAt kids2 (m - seg.length) :=
      fun m hm => nodeAt_append_right hm
    have hk2 : k - seg.length < kids2.length := by omega
    obtain ⟨hc, hh, hnh, ht⟩ := hrest (k - seg.length) hk2
    have hbase : nid + seg.length + (k - seg.length) = nid + k := by omega
    rw [hbase] at hc hh hnh
    refine ⟨?_, ?_, ?_, by rw [htrans2 k hcase]; exact ht⟩
    · intro c hcmem
      rw [htrans2 k hcase] at hcmem
      obtain ⟨h1, h2, h3⟩ := hc c hcmem
      refine ⟨h1, by simp only [List.length_append]; omega, ?_⟩
      rw [htrans2 (c - nid) (by omega),
        show c - nid - seg.length = c - (nid + seg.length) from by omega]
      exact h3
    · intro hmem
      rcases List.mem_cons.mp hmem with heq | hmem2
      · omega
      · rw [htrans2 k hcase]
        exact hh hmem2
    · intro hnotmem
      have hnm2 : (nid + k) ∉ headsRest := fun hx => hnotmem (List.mem_cons_of_mem _ hx)
      obtain ⟨p, hp1, hp2, hp3, hp4⟩ := hnh hnm2
      refine ⟨p, ?_, by omega, by simp only [List.length_append]; omega, ?_⟩
      · rw [htrans2 k hcase]
        exact hp1
      · rw [htrans2 (p - nid) (by omega),
          show p - nid - seg.length = p - (nid + seg.length) from by omega]
        exact hp4

mutual

theorem segWF_buildSeg : ∀ (j : Json) (key : String) (par : Option Nat) (myId : Nat),
    segWF (buildSeg j key par myId) myId par
  | .null, key, par, myId => segWF_leaf key .null .null par myId rfl
  | .bool b, key, par, myId => segWF_leaf key .bool (.bool b) par myId rfl
  | .num n, key, par, myId => segWF_leaf key .number (.num n) par myId rfl
  | .str s, key, par, myId => segWF_leaf key .string (.str s) par myId rfl
  | .arr es, key, par, myId => by
      rw [show buildSeg (Json.arr es) key par myId =
        ⟨key, .array, .null, par, arrChildIds es (myId + 1)⟩ ::
          buildArrKids es 0 myId (myId + 1) from rfl]
      refine segWF_cons rfl rfl rfl ?_ (kidsWF_buildArrKids es 0 myId (myId + 1))
      intro c hc
      have hb := arrChildIds_bounds es (myId + 1) c hc
      rw [buildArrKids_length]
      omega
  | .obj ms, key, par, myId => by
      rw [show buildSeg (Json.obj ms) key par myId =
        ⟨key, .object, .null, par, objChildIds ms (myId + 1)⟩ ::
          buildObjKids ms myId (myId + 1) from rfl]
      refine segWF_cons rfl rfl rfl ?_ (kidsWF_buildObjKids ms myId (myId + 1))
      intro c hc
      have hb := objChildIds_bounds ms (myId + 1) c hc
      rw [buildObjKids_length]
      omega

theorem kidsWF_buildArrKids : ∀ (es : List Json) (i pid nid : Nat),
    kidsWF (buildArrKids es i pid nid) nid pid (arrChildIds es nid)
  | [], _, _, _ => by
      intro k hk
      simp [buildArrKids] at hk
  | j :: rest, i, pid, nid => by
      rw [show buildArrKids (j :: rest) i pid nid =
            buildSeg j (toString i) (some pid) nid ++
              buildArrKids rest (i + 1) pid (nid + jsonSize j) from rfl,
          show arrChildIds (j :: rest) nid =
            nid :: arrChildIds rest (nid + jsonSize j) from rfl]
      refine kidsWF_append (segWF_buildSeg j (toString i) (some pid) nid) ?_ ?_
      · rw [buildSeg_length]
        exact kidsWF_buildArrKids rest (i + 1) pid (nid + jsonSize j)
      · rw [buildSeg_length]
        intro x hx
        exact (arrChildIds_bounds rest (nid + jsonSize j) x hx).1

theorem kidsWF_buildObjKids : ∀ (ms : List (String × Json)) (pid nid : Nat),
    kidsWF (buildObjKids ms pid nid) nid pid (objChildIds ms nid)
  | [], _, _ => by
      intro k hk
      simp [buildObjKids] at hk
  | (key, j) :: rest, pid, nid => by
      rw [show buildObjKids ((key, j) :: rest) pid nid =
            buildSeg j key (some pid) nid ++
              buildObjKids rest pid (nid + jsonSize j) from rfl,
          show objChildIds ((key, j) :: rest) nid =
            nid :: objChildIds rest (nid + jsonSize j) from rfl]
      refine kidsWF_append (segWF_buildSeg j key (some pid) nid) ?_ ?_
      · rw [buildSeg_length]
        exact kidsWF_buildObjKids rest pid (nid + jsonSize j)
      · rw [buildSeg_length]
        intro x hx
        exact (objChildIds_bounds rest (nid + jsonSize j) x hx).1

end

theorem wellFormed_jsonLoad (j : Json) : wellFormed (jsonLoad j) := by
  unfold jsonLoad
  obtain ⟨hpos, hhead, hkk⟩ := segWF_buildSeg j "root" none 0
  refine ⟨hpos, ?_⟩
  intro i hi
  obtain ⟨hc, hp, ht⟩ := hkk i hi
  refine ⟨?_, ?_, ht⟩
  · intro c hcmem
    obtain ⟨h1, h2, h3⟩ := hc c hcmem
    simp only [Nat.sub_zero, Nat.zero_add] at h2 h3
    exact ⟨by omega, h2, h3⟩
  · unfold parentOK
    cases hpar : (nodeAt (buildSeg j "root" none 0) i).parent with
    | none =>
      by_contra h0
      obtain ⟨p, hp1, -, -, -⟩ := hp h0
      rw [hpar] at hp1
      cases hp1
    | some p =>
      have h0 : i ≠ 0 := by
        rintro rfl
        rw [hhead] at hpar
        cases hpar
      obtain ⟨p', hp1, hp2, hp3, hp4⟩ := hp h0
      rw [hpar] at hp1
      injection hp1 with hpp
      subst hpp
      refine ⟨h0, ?_, ?_⟩
      · simpa using hp3
      · simpa using hp4

end QJsonModel

namespace QJsonModel

/-! The edit operation: validation, frame and invariant preservation. -/

theorem nodeAt_set (store : List TreeItem) (i : Nat) (n : TreeItem) (k : Nat) :
    nodeAt (store.set i n) k =
      if i = k ∧ i < store.length then n else nodeAt store k := by
  simp only [nodeAt, List.getD_eq_getElem?_getD, List.getElem?_set]
  by_cases h1 : i = k
  · subst h1
    by_cases h2 : i < store.length
    · simp [h2]
    · simp only [h2, and_false, if_false, if_true, eq_self_iff_true, and_true]
      rw [List.getElem?_eq_none (by omega)]
  · simp [h1]

theorem parentOK_congr {s1 s2 : List TreeItem} (i : Nat)
    (hlen : s2.length = s1.length)
    (hpar : (nodeAt s2 i).parent = (nodeAt s1 i).parent)
    (hch : ∀ x, (nodeAt s2 x).childIds = (nodeAt s1 x).childIds)
    (h : parentOK s1 i) : parentOK s2 i := by
  unfold parentOK at h ⊢
  rw [hpar]
  cases hp : (nodeAt s1 i).parent with
  | none =>
    rw [hp] at h
    exact h
  | some p =>
    rw [hp] at h
    obtain ⟨g1, g2, g3⟩ := h
    refine ⟨g1, by rw [hlen]; exact g2, ?_⟩
    rw [hch p]
    exact g3

theorem editValue_preserves_wellFormed (store : List TreeItem) (id : Nat)
    (v : JsonValue) (hwf : wellFormed store) :
    wellFormed (editValue store id v).2.1 := by
  obtain ⟨hpos, hall⟩ := hwf
  simp only [editValue]
  split_ifs with h1 h2
  · have hfield : ∀ x,
        (nodeAt (store.set id ⟨(nodeAt store id).key, (nodeAt store id).type, v,
          (nodeAt store id).parent, (nodeAt store id).childIds⟩) x).childIds
            = (nodeAt store x).childIds ∧
        (nodeAt (store.set id ⟨(nodeAt store id).key, (nodeAt store id).type, v,
          (nodeAt store id).parent, (nodeAt store id).childIds⟩) x).parent
            = (nodeAt store x).parent := by
      intro x
      rw [nodeAt_set]
      split_ifs with hx
      · obtain ⟨rfl, -⟩ := hx
        exact ⟨rfl, rfl⟩
      · exact ⟨rfl, rfl⟩
    refine ⟨by simpa using hpos, ?_⟩
    intro i hi
    rw [List.length_set] at hi
    obtain ⟨hco, hpo, hto⟩ := hall i hi
    refine ⟨?_, ?_, ?_⟩
    · unfold childOK
      rw [(hfield i).1]
      intro c hcmem
      obtain ⟨g1, g2, g3⟩ := hco c hcmem
      refine ⟨g1, by rw [List.length_set]; exact g2, ?_⟩
      rw [(hfield c).2]
      exact g3
    · exact parentOK_congr i (List.length_set store id _)
        (hfield i).2 (fun x => (hfield x).1) hpo
    · rw [nodeAt_set]
      split_ifs with hx
      · unfold nodeTypeOK
        cases htt : (nodeAt store id).type with
        | array =>
          rw [htt] at h2
          cases v <;> simp [jsonTypeOf] at h2
        | object =>
          rw [htt] at h2
          cases v <;> simp [jsonTypeOf] at h2
        | null =>
          rw [htt] at h2
          exact h2
        | bool =>
          rw [htt] at h2
          exact h2
        | number =>
          rw [htt] at h2
          exact h2
        | string =>
          rw [htt] at h2
          exact h2
      · exact hto
  · exact ⟨hpos, hall⟩
  · exact ⟨hpos, hall⟩

/-- Claim C9: loading a document establishes the structural invariant of the
tree and the edit operation preserves it: each node holds a JSON value
consistent with its declared one of the six JSON types, each child in the
ordered child list of a node has its parent back-reference pointing to that
node, and the root is the only node without a parent; the two read
operations and serialization are pure functions of the store and cannot
modify it. -/
theorem model_invariant :
    (∀ j, wellFormed (jsonLoad j)) ∧
    (∀ store id v, wellFormed store → wellFormed (editValue store id v).2.1) :=
  ⟨wellFormed_jsonLoad, editValue_preserves_wellFormed⟩

/-- Witness for model_invariant: a concrete load followed by a concrete
successful edit, both checked by evaluation. -/
theorem model_invariant_witness :
    wellFormed (editValue (jsonLoad (Json.obj [("a", Json.bool true)])) 1
      (JsonValue.bool false)).2.1 :=
  model_invariant.2 _ 1 _ (by decide)

/-- Claim C7: the edit succeeds exactly when the new value matches the
original JSON type of an existing node; on failure the store is unchanged
and no observer notification is produced; on success observers are notified
with the edited node. -/
theorem editValue_validates (store : List TreeItem) (id : Nat) (v : JsonValue) :
    ((editValue store id v).1 = true ↔
      id < store.length ∧ jsonTypeOf v = (nodeAt store id).type) ∧
    ((editValue store id v).1 = false →
      (editValue store id v).2.1 = store ∧ (editValue store id v).2.2 = none) ∧
    ((editValue store id v).1 = true → (editValue store id v).2.2 = some id) := by
  simp only [editValue]
  split_ifs with h1 h2
  · simp [h1, h2]
  · simp [h1, h2]
  · simp [h1]

/-- Claim C8: a successful edit changes only the stored scalar value of the
edited node: the store size is unchanged, every other node is unchanged, and
the key, type, parent back-reference and child list of the edited node are
unchanged while its value becomes the new value. -/
theorem editValue_frame (store : List TreeItem) (id : Nat) (v : JsonValue)
    (h : (editValue store id v).1 = true) :
    (editValue store id v).2.1.length = store.length ∧
    (∀ k, k ≠ id → nodeAt (editValue store id v).2.1 k = nodeAt store k) ∧
    (nodeAt (editValue store id v).2.1 id).key = (nodeAt store id).key ∧
    (nodeAt (editValue store id v).2.1 id).type = (nodeAt store id).type ∧
    (nodeAt (editValue store id v).2.1 id).parent = (nodeAt store id).parent ∧
    (nodeAt (editValue store id v).2.1 id).childIds = (nodeAt store id).childIds ∧
    (nodeAt (editValue store id v).2.1 id).value = v := by
  simp only [editValue] at h ⊢
  split_ifs at h ⊢ with h1 h2
  · refine ⟨by simp, ?_, ?_, ?_, ?_, ?_, ?_⟩
    · intro k hk
      rw [nodeAt_set, if_neg (fun hx => hk hx.1.symm)]
    all_goals rw [nodeAt_set, if_pos ⟨rfl, h1⟩]
  all_goals simp at h

/-- Witness for editValue_frame: a successful edit of the leaf of a one-node
document. -/
theorem editValue_frame_witness :
    (editValue (jsonLoad (Json.bool true)) 0 (JsonValue.bool false)).2.1.length
        = (jsonLoad (Json.bool true)).length ∧
    (∀ k, k ≠ 0 →
      nodeAt (editValue (jsonLoad (Json.bool true)) 0 (JsonValue.bool false)).2.1 k
        = nodeAt (jsonLoad (Json.bool true)) k) ∧
    (nodeAt (editValue (jsonLoad (Json.bool true)) 0 (JsonValue.bool false)).2.1 0).key
        = (nodeAt (jsonLoad (Json.bool true)) 0).key ∧
    (nodeAt (editValue (jsonLoad (Json.bool true)) 0 (JsonValue.bool false)).2.1 0).type
        = (nodeAt (jsonLoad (Json.bool true)) 0).type ∧
    (nodeAt (editValue (jsonLoad (Json.bool true)) 0 (JsonValue.bool false)).2.1 0).parent
        = (nodeAt (jsonLoad (Json.bool true)) 0).parent ∧
    (nodeAt (editValue (jsonLoad (Json.bool true)) 0 (JsonValue.bool false)).2.1 0).childIds
        = (nodeAt (jsonLoad (Json.bool true)) 0).childIds ∧
    (nodeAt (editValue (jsonLoad (Json.bool true)) 0 (JsonValue.bool false)).2.1 0).value
        = JsonValue.bool false :=
  editValue_frame (jsonLoad (Json.bool true)) 0 (JsonValue.bool false) (by decide)

/-- Claim C6: on a well-formed store the two read operations are mutually
inverse along the parent link: resolving the address returned by the
node-to-parent-address operation yields exactly the parent of the node the
(row, column, parent) address denoted. -/
theorem index_parent_roundtrip (store : List TreeItem) (row col : Nat)
    (P : ModelIndex) (nid : Nat) (hwf : wellFormed store)
    (h : modelIndex store row col P = ModelIndex.idx row col nid) :
    itemOf (parentIndex store (ModelIndex.idx row col nid)) = itemOf P := by
  simp only [modelIndex] at h
  split_ifs at h with hc
  · cases hm : (nodeAt store (itemOf P)).childIds[row]? with
    | none =>
      rw [hm] at h
      cases h
    | some cid =>
      rw [hm] at h
      have hcid : cid = nid := by
        cases h
        rfl
      subst hcid
      obtain ⟨hlt, hg⟩ := List.getElem?_eq_some.mp hm
      have hmem : cid ∈ (nodeAt store (itemOf P)).childIds := by
        rw [← hg]
        exact List.getElem_mem hlt
      obtain ⟨-, hall⟩ := hwf
      obtain ⟨hchild, -, -⟩ := hall (itemOf P) hc.2
      obtain ⟨-, -, hparent⟩ := hchild cid hmem
      simp only [parentIndex, hparent]
      split_ifs with h0
      · exact h0.symm
      · rfl

/-- Witness for index_parent_roundtrip: the only child of a one-member
object document resolves back to the root. -/
theorem index_parent_roundtrip_witness :
    itemOf (parentIndex (jsonLoad (Json.obj [("a", Json.null)]))
      (ModelIndex.idx 0 0 1)) = itemOf ModelIndex.invalid :=
  index_parent_roundtrip (jsonLoad (Json.obj [("a", Json.null)])) 0 0
    ModelIndex.invalid 1 (by decide) (by decide)

/-- Counterexample to claim C10 as stated: in the tree loaded from the
one-member object document, no (row, column, parent) address maps to the
root container node (id 0): the first read operation only returns children
of some node and no node lists the root among its children. -/
theorem root_has_no_address :
    ¬ ∃ row col P, modelIndex (jsonLoad (Json.obj [("a", Json.null)])) row col P
        = ModelIndex.idx row col 0 := by
  rintro ⟨row, col, P, h⟩
  have hstore : jsonLoad (Json.obj [("a", Json.null)]) =
      [⟨"root", .object, .null, none, [1]⟩, ⟨"a", .null, .null, some 0, []⟩] := rfl
  rw [hstore] at h
  simp only [modelIndex] at h
  split_ifs at h with hc
  · obtain ⟨-, hlt⟩ := hc
    simp only [List.length_cons, List.length_nil] at hlt
    set m := itemOf P with hm
    interval_cases m <;> cases row <;>
      simp [nodeAt, List.getD_cons_zero, List.getD_cons_succ] at h

/-- Claim C10 (amended): in a well-formed store every node other than the
invisible root (which the toolkit addresses as the invalid root index) is
the image of some (row, column, parent) address under the first read
operation. -/
theorem nonroot_addressable (store : List TreeItem) (hwf : wellFormed store) :
    ∀ id, id < store.length → id ≠ 0 →
      ∃ row P, modelIndex store row 0 P = ModelIndex.idx row 0 id := by
  intro id hid h0
  obtain ⟨hpos, hall⟩ := hwf
  obtain ⟨-, hp, -⟩ := hall id hid
  unfold parentOK at hp
  split at hp
  · exact absurd hp h0
  · rename_i p hpar
    obtain ⟨-, hplen, hmem⟩ := hp
    have hrow : List.indexOf id (nodeAt store p).childIds <
        (nodeAt store p).childIds.length := List.indexOf_lt_length.mpr hmem
    refine ⟨List.indexOf id (nodeAt store p).childIds,
      (if p = 0 then ModelIndex.invalid
       else ModelIndex.idx (rowInParent store p) 0 p), ?_⟩
    have hio : itemOf (if p = 0 then ModelIndex.invalid
        else ModelIndex.idx (rowInParent store p) 0 p) = p := by
      split_ifs with hq
      · simp [itemOf, hq]
      · simp [itemOf]
    simp only [modelIndex, hio]
    rw [if_pos ⟨by norm_num, hplen⟩]
    rw [List.getElem?_eq_getElem hrow, List.getElem_indexOf hrow]

/-- Witness for nonroot_addressable: the single child node of a one-member
object document has an address. -/
theorem nonroot_addressable_witness :
    ∃ row P, modelIndex (jsonLoad (Json.obj [("a", Json.null)])) row 0 P
        = ModelIndex.idx row 0 1 :=
  nonroot_addressable (jsonLoad (Json.obj [("a", Json.null)])) (by decide) 1
    (by decide) (by decide)

end QJsonModel
